import Mathlib

/-!
Shallow embedding of the stroka SSO string library (sources: src/src/lib.rs,
src/src/drain.rs).  String content is modelled at the level of decoded
Unicode scalar values (`List Char`); byte offsets, lengths and capacities are
tracked through the UTF-8 byte length of that content, matching Rust's
`char::len_utf8`.  The machine word size is fixed at 8 bytes (64-bit target),
so the inline buffer capacity is `2 * 8 - 2 = 14` bytes, as documented in the
crate.  Operations that `panic!` or `assert!` in Rust are modelled as
`Option`-returning functions where `none` is the panic.
-/

namespace Stroka

/-- Byte length of the UTF-8 encoding of one scalar value (Rust `char::len_utf8`). -/
def utf8Size (c : Char) : Nat :=
  if c.toNat < 0x80 then 1
  else if c.toNat < 0x800 then 2
  else if c.toNat < 0x10000 then 3
  else 4

/-- UTF-8 byte length of a decoded string. -/
def utf8Len : List Char → Nat
  | [] => 0
  | c :: cs => utf8Size c + utf8Len cs

/-- The characters encoded in the first `n` bytes of the UTF-8 encoding of the
list (meaningful when `n` is a char boundary).  Models shrinking a byte buffer
with `set_len`/truncation at a boundary. -/
def takeBytes : List Char → Nat → List Char
  | _, 0 => []
  | [], _ + 1 => []
  | c :: cs, n + 1 =>
    if utf8Size c ≤ n + 1 then c :: takeBytes cs (n + 1 - utf8Size c) else []

/-- The characters encoded from byte offset `n` onward (meaningful when `n` is
a char boundary). -/
def dropBytes : List Char → Nat → List Char
  | cs, 0 => cs
  | [], _ + 1 => []
  | c :: cs, n + 1 =>
    if utf8Size c ≤ n + 1 then dropBytes cs (n + 1 - utf8Size c) else c :: cs

/-- Rust `str::is_char_boundary` on the UTF-8 encoding of the list: true for
offset 0 and for any offset landing exactly between encoded scalars, false
inside a multi-byte encoding and past the end. -/
def is_char_boundary : List Char → Nat → Bool
  | _, 0 => true
  | [], _ + 1 => false
  | c :: cs, n + 1 =>
    if utf8Size c ≤ n + 1 then is_char_boundary cs (n + 1 - utf8Size c) else false

/-- Machine word size in bytes; the model fixes a 64-bit target. -/
def wordSize : Nat := 8

/-- `SSO_MAX_SIZE = mem::size_of::<HeapStr>() * 2 - 2` from src/src/lib.rs;
`minivec::MiniVec` is one word, so this is `2 * wordSize - 2 = 14`. -/
def SSO_MAX_SIZE : Nat := 2 * wordSize - 2

/-- Modelled from the spec: the fixed-capacity inline buffer (`str_buf::StrBuf`,
an external dependency, spec §4.1 InlineBuffer).  It holds the decoded content;
its byte length is implicit (`utf8Len`).  No capacity invariant is built into
the type so that an overflowing unchecked append (undefined behavior in Rust)
is representable as a state violating `StrBuf.wfBuf`. -/
structure StrBuf where
  chars : List Char
deriving DecidableEq

/-- `StrBuf::capacity()`: the fixed inline capacity. -/
def StrBuf.capacity : Nat := SSO_MAX_SIZE

/-- `StrBuf::len()`: byte length of the stored content. -/
def StrBuf.len (b : StrBuf) : Nat := utf8Len b.chars

/-- Modelled from the spec (§4.1): `StrBuf::remaining()` is the unused inline
capacity in bytes. -/
def StrBuf.remaining (b : StrBuf) : Nat := StrBuf.capacity - b.len

/-- Modelled from the spec (§4.1): `push_str_unchecked` appends with no
capacity check; the caller must guarantee `remaining ≥ s.len()`, otherwise the
write overflows the buffer (undefined behavior in Rust, a non-`wfBuf` state
here). -/
def StrBuf.push_str_unchecked (b : StrBuf) (s : List Char) : StrBuf :=
  ⟨b.chars ++ s⟩

/-- `StrBuf::clear()`: set length to 0. -/
def StrBuf.clear (_ : StrBuf) : StrBuf := ⟨[]⟩

/-- `StrBuf::set_len` at a char boundary. -/
def StrBuf.set_len (b : StrBuf) (n : Nat) : StrBuf := ⟨takeBytes b.chars n⟩

/-- The inline buffer invariant: the content fits the fixed capacity. -/
def StrBuf.wfBuf (b : StrBuf) : Bool := b.len ≤ StrBuf.capacity

/-- Modelled from the spec: the growable heap buffer (`minivec::MiniVec<u8>`,
an external dependency, spec §4.2 HeapBuffer): content plus a tracked byte
capacity. -/
structure MiniVec where
  chars : List Char
  cap : Nat
deriving DecidableEq

/-- `MiniVec::len()` in bytes. -/
def MiniVec.len (m : MiniVec) : Nat := utf8Len m.chars

/-- `MiniVec::with_capacity`. -/
def MiniVec.with_capacity (n : Nat) : MiniVec := ⟨[], n⟩

/-- Modelled from the spec (§4.2): `reserve(additional)` — amortized growth,
implementer's choice, but monotone and at least the requested
`len + additional`; modelled as doubling-or-requested. -/
def MiniVec.reserve (m : MiniVec) (additional : Nat) : MiniVec :=
  if m.len + additional ≤ m.cap then m
  else ⟨m.chars, max (m.len + additional) (2 * m.cap)⟩

/-- Modelled from the spec (§4.2): `reserve_exact(additional)` — exactly enough
capacity, no slack. -/
def MiniVec.reserve_exact (m : MiniVec) (additional : Nat) : MiniVec :=
  if m.len + additional ≤ m.cap then m
  else ⟨m.chars, m.len + additional⟩

/-- Modelled from the spec (§4.2): `extend_from_slice` appends, growing the
capacity when the content no longer fits. -/
def MiniVec.extend_from_slice (m : MiniVec) (s : List Char) : MiniVec :=
  ⟨m.chars ++ s, max m.cap (m.len + utf8Len s)⟩

/-- Modelled from the spec (§4.2): `shrink_to_fit` releases unused capacity
(capacity 0 for an empty buffer). -/
def MiniVec.shrink_to_fit (m : MiniVec) : MiniVec := ⟨m.chars, m.len⟩

/-- `MiniVec::clear`: length 0, capacity kept. -/
def MiniVec.clear (m : MiniVec) : MiniVec := ⟨[], m.cap⟩

/-- `MiniVec::set_len` at a char boundary. -/
def MiniVec.set_len (m : MiniVec) (n : Nat) : MiniVec := ⟨takeBytes m.chars n, m.cap⟩

/-- The heap buffer invariant: content fits the tracked capacity. -/
def MiniVec.wfVec (m : MiniVec) : Bool := m.len ≤ m.cap

/-- `pub enum String { Heap(HeapStr), Sso(StrBuf) }` from src/src/lib.rs. -/
inductive String where
  | Heap : MiniVec → String
  | Sso : StrBuf → String
deriving DecidableEq

/-- `String::new()`: empty inline instance. -/
def String.new : String := .Sso ⟨[]⟩

/-- `String::new_str(text)`: `StrBuf::from_str_checked` succeeds exactly when
the text fits the inline capacity (spec §4.1); on overflow the content goes to
a heap buffer (`text.into()`, capacity = length). -/
def String.new_str (text : List Char) : String :=
  if utf8Len text ≤ SSO_MAX_SIZE then .Sso ⟨text⟩ else .Heap ⟨text, utf8Len text⟩

/-- `From<&str>::from` and `FromStr::from_str` (infallible) both delegate to
`String::new_str`. -/
def String.from_str (s : List Char) : String := String.new_str s

/-- `String::with_capacity(capacity)`. -/
def String.with_capacity (capacity : Nat) : String :=
  if capacity ≤ StrBuf.capacity then String.new
  else .Heap (MiniVec.with_capacity capacity)

/-- `String::is_heap()`. -/
def String.is_heap : String → Bool
  | .Heap _ => true
  | .Sso _ => false

/-- `String::len()`: byte length of the underlying storage. -/
def String.len : String → Nat
  | .Heap m => m.len
  | .Sso b => b.len

/-- `String::capacity()`. -/
def String.capacity : String → Nat
  | .Heap m => m.cap
  | .Sso _ => StrBuf.capacity

/-- `String::as_str()` (equivalently `as_bytes`, decoded): the stored content. -/
def String.as_str : String → List Char
  | .Heap m => m.chars
  | .Sso b => b.chars

/-- Whole-value invariant: the active buffer is within capacity. -/
def String.wf : String → Bool
  | .Heap m => m.wfVec
  | .Sso b => b.wfBuf

/-- `String::assert_heap_from_sso(capacity)`: allocate a heap buffer of the
given capacity and copy the inline bytes into it verbatim (the `Sso` payload is
passed directly; the source's non-`Sso` case is unreachable at every call
site). -/
def String.assert_heap_from_sso (buf : StrBuf) (capacity : Nat) : MiniVec :=
  ⟨buf.chars, capacity⟩

/-- `String::reserve(additional)` from src/src/lib.rs. -/
def String.reserve (self : String) (additional : Nat) : String :=
  let capacity := self.capacity
  let required := self.len + additional
  if required ≤ capacity then self
  else
    match self with
    | .Sso buf => .Heap (String.assert_heap_from_sso buf required)
    | .Heap m => .Heap (m.reserve additional)

/-- `String::reserve_exact(additional)` from src/src/lib.rs. -/
def String.reserve_exact (self : String) (additional : Nat) : String :=
  let capacity := self.capacity
  let required := self.len + additional
  if required ≤ capacity then self
  else
    match self with
    | .Sso buf => .Heap (String.assert_heap_from_sso buf required)
    | .Heap m => .Heap (m.reserve_exact additional)

/-- `String::shrink_to_fit()`: no-op while inline. -/
def String.shrink_to_fit : String → String
  | .Heap m => .Heap m.shrink_to_fit
  | .Sso b => .Sso b

/-- `String::clear()`. -/
def String.clear : String → String
  | .Heap m => .Heap m.clear
  | .Sso b => .Sso b.clear

/-- `String::truncate(new_len)` from src/src/lib.rs: both branches
`assert!(is_char_boundary(new_len))` on the current content (there is no
`new_len ≤ len` guard), then shrink the length; `none` models the panic. -/
def String.truncate (self : String) (new_len : Nat) : Option String :=
  match self with
  | .Heap m =>
    if is_char_boundary m.chars new_len then some (.Heap (m.set_len new_len)) else none
  | .Sso b =>
    if is_char_boundary b.chars new_len then some (.Sso (b.set_len new_len)) else none

/-- `String::pop()` from src/src/lib.rs: take the last character, if any, and
shrink the byte length by its UTF-8 size.  Returns the popped character and
the updated value. -/
def String.pop (self : String) : Option Char × String :=
  match self with
  | .Heap m =>
    match m.chars.getLast? with
    | none => (none, .Heap m)
    | some c => (some c, .Heap (m.set_len (m.len - utf8Size c)))
  | .Sso b =>
    match b.chars.getLast? with
    | none => (none, .Sso b)
    | some c => (some c, .Sso (b.set_len (b.len - utf8Size c)))

/-- `String::push_str(string)` from src/src/lib.rs, verbatim including its
promotion trigger: on the inline branch the code compares
`sso.remaining() < len` — the current length `self.len()`, not the byte length
of the string being appended — and otherwise calls `push_str_unchecked`. -/
def String.push_str (self : String) (string : List Char) : String :=
  let len := self.len
  match self with
  | .Heap heap => .Heap (heap.extend_from_slice string)
  | .Sso sso =>
    if sso.remaining < len then
      .Heap ((String.assert_heap_from_sso sso (len + utf8Len string)).extend_from_slice string)
    else
      .Sso (sso.push_str_unchecked string)

/-- `String::push(ch)`: encode the character to UTF-8 and append it via
`push_str`; at the decoded level the encoded slice is the one-character
string `[ch]`. -/
def String.push (self : String) (ch : Char) : String := self.push_str [ch]

/-- One item of Rust core's `char::decode_utf16`: a decoded scalar or an
unpaired/invalid surrogate code unit (`DecodeUtf16Error` carries that unit). -/
inductive Utf16Item where
  | valid : Char → Utf16Item
  | invalid : Nat → Utf16Item
deriving DecidableEq

/-- Modelled from Rust core (external to this repository):
`char::decode_utf16`.  Non-surrogate units decode directly; a high surrogate
followed by a low surrogate decodes as a pair; a lone or mis-ordered surrogate
yields an error carrying that unit, and the following unit (if any) is
re-examined. -/
def decode_utf16 : List Nat → List Utf16Item
  | [] => []
  | [u] =>
    if u < 0xD800 ∨ 0xDFFF < u then [.valid (Char.ofNat u)]
    else [.invalid u]
  | u :: u2 :: rest2 =>
    if u < 0xD800 ∨ 0xDFFF < u then .valid (Char.ofNat u) :: decode_utf16 (u2 :: rest2)
    else if 0xDC00 ≤ u then .invalid u :: decode_utf16 (u2 :: rest2)
    else if 0xDC00 ≤ u2 ∧ u2 ≤ 0xDFFF then
      .valid (Char.ofNat (0x10000 + (u - 0xD800) * 0x400 + (u2 - 0xDC00))) :: decode_utf16 rest2
    else .invalid u :: decode_utf16 (u2 :: rest2)

/-- The scalars of an all-valid decode (in order, errors skipped). -/
def utf16_ok_chars : List Utf16Item → List Char
  | [] => []
  | .valid c :: rest => c :: utf16_ok_chars rest
  | .invalid _ :: rest => utf16_ok_chars rest

/-- The first invalid code unit of a decode, if any. -/
def utf16_first_invalid : List Utf16Item → Option Nat
  | [] => none
  | .valid _ :: rest => utf16_first_invalid rest
  | .invalid u :: _ => some u

/-- The lossy decode: each invalid sequence becomes U+FFFD. -/
def utf16_lossy_chars : List Utf16Item → List Char
  | [] => []
  | .valid c :: rest => c :: utf16_lossy_chars rest
  | .invalid _ :: rest => Char.ofNat 0xFFFD :: utf16_lossy_chars rest

/-- The `for ch in decode_utf16 { res.push(ch?) }` loop of `from_utf16`:
stop with the offending unit at the first error. -/
def from_utf16_go (res : String) : List Utf16Item → Except Nat String
  | [] => .ok res
  | .valid c :: rest => from_utf16_go (res.push c) rest
  | .invalid u :: _ => .error u

/-- The loop of `from_utf16_lossy`: push U+FFFD for each error. -/
def from_utf16_lossy_go (res : String) : List Utf16Item → String
  | [] => res
  | .valid c :: rest => from_utf16_lossy_go (res.push c) rest
  | .invalid _ :: rest => from_utf16_lossy_go (res.push (Char.ofNat 0xFFFD)) rest

/-- `String::from_utf16(&mut self, utf16)` from src/src/lib.rs: the receiver is
declared `&mut self` but the body never touches it; the result is built from a
fresh `with_capacity(utf16.len())` value.  The pair returns the (unchanged)
receiver and the `Result`. -/
def String.from_utf16 (self : String) (utf16 : List Nat) : String × Except Nat String :=
  (self, from_utf16_go (String.with_capacity utf16.length) (decode_utf16 utf16))

/-- `String::from_utf16_lossy(&mut self, utf16)` from src/src/lib.rs: as
`from_utf16`, with U+FFFD substituted for each error. -/
def String.from_utf16_lossy (self : String) (utf16 : List Nat) : String × String :=
  (self, from_utf16_lossy_go (String.with_capacity utf16.length) (decode_utf16 utf16))

/-- Modelled from Rust core (external to this repository): the debug escape of
one character as used by `impl Debug for str`; shown for the common ASCII
escapes, other scalars render as themselves. -/
def char_escape_debug (c : Char) : List Char :=
  if c = '"' then ['\\', '"']
  else if c = '\\' then ['\\', '\\']
  else if c = Char.ofNat 9 then ['\\', 't']
  else if c = Char.ofNat 13 then ['\\', 'r']
  else if c = Char.ofNat 10 then ['\\', 'n']
  else if c = Char.ofNat 0 then ['\\', '0']
  else [c]

/-- Escape every character of a string for debug output. -/
def escape_debug_all : List Char → List Char
  | [] => []
  | c :: cs => char_escape_debug c ++ escape_debug_all cs

/-- Modelled from Rust core (external to this repository): `impl Debug for str`
writes a double quote, the escaped content, and a closing double quote. -/
def debug_fmt_str (s : List Char) : List Char :=
  '"' :: (escape_debug_all s ++ ['"'])

/-- `impl fmt::Debug for String` from src/src/lib.rs:
`fmt::Debug::fmt(self.as_str(), f)`. -/
def String.debug_fmt (v : String) : List Char := debug_fmt_str v.as_str

/-- `impl fmt::Display for String` from src/src/lib.rs: the body calls
`fmt::Debug::fmt(self.as_str(), f)` — the Debug rendering, not the plain
content. -/
def String.display_fmt (v : String) : List Char := debug_fmt_str v.as_str

/-- `impl PartialEq for String` from src/src/lib.rs:
`PartialEq::eq(self.as_str(), other.as_str())`. -/
def String.eqStr (self other : String) : Bool := self.as_str == other.as_str

/-- Modelled from Rust core (external to this repository): `str::cmp` compares
the UTF-8 bytes lexicographically, which on valid UTF-8 equals lexicographic
comparison of the scalar values. -/
def charCmp (a b : Char) : Ordering :=
  if a.toNat < b.toNat then .lt else if b.toNat < a.toNat then .gt else .eq

/-- Lexicographic comparison of decoded strings (Rust `str::cmp`). -/
def strCmp : List Char → List Char → Ordering
  | [], [] => .eq
  | [], _ :: _ => .lt
  | _ :: _, [] => .gt
  | a :: as_, b :: bs =>
    match charCmp a b with
    | .eq => strCmp as_ bs
    | o => o

/-- `impl Ord for String` from src/src/lib.rs:
`Ord::cmp(self.as_str(), other.as_str())`. -/
def String.cmp (self other : String) : Ordering := strCmp self.as_str other.as_str

/-- `impl hash::Hash for String` from src/src/lib.rs: the content `as_str()` is
fed to the (arbitrary) hasher: `hash::Hash::hash(self.as_str(), hasher)`. -/
def String.hashWith (hasher : List Char → Nat) (self : String) : Nat :=
  hasher self.as_str

/-- The characters originally encoded at byte offsets `[start, stop)` of a
string (meaningful when both offsets are char boundaries). -/
def rangeChars (cs : List Char) (start stop : Nat) : List Char :=
  takeBytes (dropBytes cs start) (stop - start)

/-- The draining iterator of src/src/drain.rs: the exclusively borrowed owner,
the byte range `[start, stop)` to excise at disposal, and the `Chars` cursor
over the not-yet-yielded part of that range (`stop` stands for the source's
`end` field, a reserved word here). -/
structure Drain where
  string : String
  start : Nat
  stop : Nat
  front : List Char
deriving DecidableEq

/-- `Iterator::next` for `Drain` (src/src/drain.rs): `self.chars.next()` —
take the first remaining character of the cursor. -/
def Drain.next (self : Drain) : Option Char × Drain :=
  match self.front with
  | [] => (none, self)
  | c :: rest => (some c, { self with front := rest })

/-- `DoubleEndedIterator::next_back` for `Drain` (src/src/drain.rs):
`self.chars.next_back()` — take the last remaining character of the cursor. -/
def Drain.next_back (self : Drain) : Option Char × Drain :=
  match self.front.getLast? with
  | none => (none, self)
  | some c => (some c, { self with front := self.front.dropLast })

/-- `Drain::as_str` (src/src/drain.rs): the remaining un-yielded sub-string. -/
def Drain.remaining_str (self : Drain) : List Char := self.front

/-- `impl Drop for Drain` (src/src/drain.rs): on either variant, shift the
bytes following the drained range left over it
(`ptr::copy` of `len - start - range_size` bytes from offset `stop` to offset
`start`) and shrink the length by `stop - start`; at the decoded level the
content becomes `bytes[0, start) ++ bytes[stop, len)`.  The cursor state is
not consulted. -/
def Drain.drop (self : Drain) : String :=
  match self.string with
  | .Heap m =>
    .Heap ⟨takeBytes m.chars self.start ++ dropBytes m.chars self.stop, m.cap⟩
  | .Sso b =>
    .Sso ⟨takeBytes b.chars self.start ++ dropBytes b.chars self.stop⟩

/-- Modelled from the spec: the creation of the draining iterator
(`String::drain(range)` is not under src; spec §3, §4.4 and §4.5): the range
is normalized to byte offsets `[start, stop)`, each asserted to lie on a char
boundary with `start ≤ stop` (`none` models the panic), and the cursor is the
current slice restricted to that range. -/
def String.drain (self : String) (start stop : Nat) : Option Drain :=
  if is_char_boundary self.as_str start = true
      ∧ is_char_boundary self.as_str stop = true ∧ start ≤ stop then
    some ⟨self, start, stop, rangeChars self.as_str start stop⟩
  else none

/-- Forward consumption of a draining iterator to exhaustion: the list of
characters successively yielded by `next`. -/
def drainForward (d : Drain) : List Char :=
  match h : d.front with
  | [] => []
  | c :: rest => c :: drainForward { d with front := rest }
termination_by d.front.length
decreasing_by
  rw [h]
  simp

/-- Backward consumption of a draining iterator to exhaustion: the list of
characters successively yielded by `next_back`. -/
def drainBackward (d : Drain) : List Char :=
  match h : d.front.getLast? with
  | none => []
  | some c => c :: drainBackward { d with front := d.front.dropLast }
termination_by d.front.length
decreasing_by
  simp only [List.length_dropLast]
  have hne : d.front ≠ [] := by
    intro hnil
    rw [hnil] at h
    simp at h
  have hpos : 0 < d.front.length := List.length_pos.mpr hne
  omega

/-- The mutating operations of the public API present under src (spec §4.4 and
§6); `drainOp` creates a draining iterator over the given byte range and
disposes of it. -/
inductive Op where
  | clearOp : Op
  | shrinkOp : Op
  | popOp : Op
  | pushOp : Char → Op
  | pushStrOp : List Char → Op
  | truncateOp : Nat → Op
  | reserveOp : Nat → Op
  | reserveExactOp : Nat → Op
  | drainOp : Nat → Nat → Op
deriving DecidableEq

/-- Run one mutating operation; `none` models a panic. -/
def String.step (self : String) : Op → Option String
  | .clearOp => some self.clear
  | .shrinkOp => some self.shrink_to_fit
  | .popOp => some (self.pop).2
  | .pushOp c => some (self.push c)
  | .pushStrOp s => some (self.push_str s)
  | .truncateOp n => self.truncate n
  | .reserveOp n => some (self.reserve n)
  | .reserveExactOp n => some (self.reserve_exact n)
  | .drainOp a b => (self.drain a b).map Drain.drop

/-- Run a sequence of mutating operations, stopping at the first panic. -/
def String.applySeq (self : String) : List Op → Option String
  | [] => some self
  | op :: ops =>
    match self.step op with
    | none => none
    | some v2 => v2.applySeq ops

/-- A fifteen-byte sample content (one byte beyond the 14-byte inline
capacity), used by the closed instance theorems below. -/
def sampleFifteen : List Char :=
  ['0', '1', '2', '3', '4', '5', '6', '7', '8', '9', 'A', 'B', 'C', 'D', 'E']

/-! Basic facts about the byte-length bookkeeping. -/

theorem utf8Size_pos (c : Char) : 0 < utf8Size c := by
  unfold utf8Size
  split
  · omega
  split
  · omega
  split <;> omega

@[simp] theorem utf8Len_nil : utf8Len [] = 0 := rfl

@[simp] theorem utf8Len_cons (c : Char) (cs : List Char) :
    utf8Len (c :: cs) = utf8Size c + utf8Len cs := rfl

theorem utf8Len_append (a b : List Char) :
    utf8Len (a ++ b) = utf8Len a + utf8Len b := by
  induction a with
  | nil => simp
  | cons c a ih => simp [ih, Nat.add_assoc]

@[simp] theorem takeBytes_zero (cs : List Char) : takeBytes cs 0 = [] := by
  cases cs <;> rfl

@[simp] theorem dropBytes_zero (cs : List Char) : dropBytes cs 0 = cs := by
  cases cs <;> rfl

@[simp] theorem is_char_boundary_zero (cs : List Char) :
    is_char_boundary cs 0 = true := by
  cases cs <;> rfl

theorem takeBytes_cons_of_le (c : Char) (cs : List Char) (n : Nat)
    (h : utf8Size c ≤ n) :
    takeBytes (c :: cs) n = c :: takeBytes cs (n - utf8Size c) := by
  cases n with
  | zero => exact absurd h (by have := utf8Size_pos c; omega)
  | succ m => simp only [takeBytes, if_pos h]

theorem dropBytes_cons_of_le (c : Char) (cs : List Char) (n : Nat)
    (h : utf8Size c ≤ n) :
    dropBytes (c :: cs) n = dropBytes cs (n - utf8Size c) := by
  cases n with
  | zero => exact absurd h (by have := utf8Size_pos c; omega)
  | succ m => simp only [dropBytes, if_pos h]

theorem is_char_boundary_cons_of_le (c : Char) (cs : List Char) (n : Nat)
    (h : utf8Size c ≤ n) :
    is_char_boundary (c :: cs) n = is_char_boundary cs (n - utf8Size c) := by
  cases n with
  | zero => exact absurd h (by have := utf8Size_pos c; omega)
  | succ m => simp only [is_char_boundary, if_pos h]

theorem takeBytes_append_add (a b : List Char) (k : Nat) :
    takeBytes (a ++ b) (utf8Len a + k) = a ++ takeBytes b k := by
  induction a with
  | nil => simp
  | cons c a ih =>
    have hle : utf8Size c ≤ utf8Size c + utf8Len a + k := by omega
    rw [List.cons_append, utf8Len_cons, Nat.add_assoc,
      takeBytes_cons_of_le c (a ++ b) _ (by omega)]
    have harg : utf8Size c + (utf8Len a + k) - utf8Size c = utf8Len a + k := by omega
    rw [harg, ih, List.cons_append]

theorem dropBytes_append_add (a b : List Char) (k : Nat) :
    dropBytes (a ++ b) (utf8Len a + k) = dropBytes b k := by
  induction a with
  | nil => simp
  | cons c a ih =>
    rw [List.cons_append, utf8Len_cons, Nat.add_assoc,
      dropBytes_cons_of_le c (a ++ b) _ (by omega)]
    have harg : utf8Size c + (utf8Len a + k) - utf8Size c = utf8Len a + k := by omega
    rw [harg, ih]

theorem is_char_boundary_append_add (a b : List Char) (k : Nat) :
    is_char_boundary (a ++ b) (utf8Len a + k) = is_char_boundary b k := by
  induction a with
  | nil => simp
  | cons c a ih =>
    rw [List.cons_append, utf8Len_cons, Nat.add_assoc,
      is_char_boundary_cons_of_le c (a ++ b) _ (by omega)]
    have harg : utf8Size c + (utf8Len a + k) - utf8Size c = utf8Len a + k := by omega
    rw [harg, ih]

theorem takeBytes_append_exact (a b : List Char) :
    takeBytes (a ++ b) (utf8Len a) = a := by
  have := takeBytes_append_add a b 0
  simpa using this

theorem dropBytes_append_exact (a b : List Char) :
    dropBytes (a ++ b) (utf8Len a) = b := by
  have := dropBytes_append_add a b 0
  simpa using this

/-- A true char boundary splits the content into a prefix of exactly `n` bytes
and the rest. -/
theorem is_char_boundary_split :
    ∀ (cs : List Char) (n : Nat), is_char_boundary cs n = true →
      takeBytes cs n ++ dropBytes cs n = cs ∧ utf8Len (takeBytes cs n) = n := by
  intro cs
  induction cs with
  | nil =>
    intro n h
    cases n with
    | zero => simp
    | succ m => simp [is_char_boundary] at h
  | cons c cs ih =>
    intro n h
    cases n with
    | zero => simp
    | succ m =>
      by_cases hc : utf8Size c ≤ m + 1
      · rw [is_char_boundary_cons_of_le c cs _ hc] at h
        obtain ⟨h1, h2⟩ := ih (m + 1 - utf8Size c) h
        rw [takeBytes_cons_of_le c cs _ hc, dropBytes_cons_of_le c cs _ hc]
        refine ⟨by rw [List.cons_append, h1], ?_⟩
        rw [utf8Len_cons, h2]
        omega
      · simp only [is_char_boundary, if_neg hc] at h
        exact absurd h (by decide)

theorem is_char_boundary_le (cs : List Char) (n : Nat)
    (h : is_char_boundary cs n = true) : n ≤ utf8Len cs := by
  obtain ⟨h1, h2⟩ := is_char_boundary_split cs n h
  have := utf8Len_append (takeBytes cs n) (dropBytes cs n)
  rw [h1] at this
  omega

/-! Content-level behavior of the basic mutators. -/

theorem as_str_push_str (v : String) (s : List Char) :
    (v.push_str s).as_str = v.as_str ++ s := by
  cases v with
  | Heap m => rfl
  | Sso b =>
    simp only [String.push_str]
    split <;> rfl

theorem as_str_push (v : String) (c : Char) :
    (v.push c).as_str = v.as_str ++ [c] :=
  as_str_push_str v [c]

theorem pop_concat (v : String) (s : List Char) (c : Char)
    (h : v.as_str = s ++ [c]) :
    (v.pop).1 = some c ∧ (v.pop).2.as_str = s := by
  have harg : utf8Len s + (utf8Size c + 0) - utf8Size c = utf8Len s := by omega
  cases v with
  | Heap m =>
    obtain ⟨mc, mcap⟩ := m
    simp only [String.as_str] at h
    subst h
    simp only [String.pop, List.getLast?_concat, String.as_str, MiniVec.set_len,
      MiniVec.len, utf8Len_append, utf8Len_cons, utf8Len_nil]
    exact ⟨trivial, by rw [harg, takeBytes_append_exact]⟩
  | Sso b =>
    obtain ⟨bc⟩ := b
    simp only [String.as_str] at h
    subst h
    simp only [String.pop, List.getLast?_concat, String.as_str, StrBuf.set_len,
      StrBuf.len, utf8Len_append, utf8Len_cons, utf8Len_nil]
    exact ⟨trivial, by rw [harg, takeBytes_append_exact]⟩

/-! Behavior of the draining iterator. -/

/-- Consuming a draining iterator forward yields its cursor content in order. -/
theorem drainForward_front (d : Drain) : drainForward d = d.front := by
  induction d using drainForward.induct with
  | case1 d h => rw [drainForward, h]
  | case2 d c rest h ih =>
    rw [drainForward, h]
    simpa using ih

/-- Consuming a draining iterator backward yields its cursor content in
reverse order. -/
theorem drainBackward_front (d : Drain) : drainBackward d = d.front.reverse := by
  induction d using drainBackward.induct with
  | case1 d h =>
    rw [drainBackward, h]
    have hnil : d.front = [] := by
      cases hf : d.front with
      | nil => rfl
      | cons x xs => rw [hf] at h; simp at h
    rw [hnil]
    rfl
  | case2 d c h ih =>
    rw [drainBackward, h, ih]
    have hne : d.front ≠ [] := by
      intro hnil
      rw [hnil] at h
      simp at h
    have hsplit : d.front.dropLast ++ [d.front.getLast hne] = d.front :=
      List.dropLast_append_getLast hne
    have hc : d.front.getLast hne = c := by
      have hgl := List.getLast?_eq_getLast d.front hne
      rw [hgl] at h
      injection h
    calc c :: ({ d with front := d.front.dropLast } : Drain).front.reverse
        = c :: d.front.dropLast.reverse := rfl
      _ = d.front.reverse := by
          rw [← hsplit, List.reverse_append]
          simp [hc]

/-- `next` never touches the owner. -/
theorem Drain.next_string (d : Drain) : ((d.next).2).string = d.string := by
  cases h : d.front <;> simp [Drain.next, h]

/-- `next_back` never touches the owner. -/
theorem Drain.next_back_string (d : Drain) : ((d.next_back).2).string = d.string := by
  cases h : d.front.getLast? <;> simp [Drain.next_back, h]

/-! Comparison facts. -/

theorem charCmp_refl (c : Char) : charCmp c c = Ordering.eq := by
  unfold charCmp
  simp

theorem strCmp_refl (s : List Char) : strCmp s s = Ordering.eq := by
  induction s with
  | nil => rfl
  | cons c cs ih => simp [strCmp, charCmp_refl, ih]

/-! Variant preservation of the mutating operations. -/

/-- Every mutating step of the public API leaves a heap value on the heap. -/
theorem step_preserves_heap (v : String) (op : Op) (w : String)
    (hv : v.is_heap = true) (hw : v.step op = some w) : w.is_heap = true := by
  cases v with
  | Sso b => simp [String.is_heap] at hv
  | Heap m =>
    cases op with
    | clearOp =>
      simp only [String.step] at hw
      injection hw with h
      subst h
      rfl
    | shrinkOp =>
      simp only [String.step] at hw
      injection hw with h
      subst h
      rfl
    | popOp =>
      simp only [String.step] at hw
      injection hw with h
      subst h
      cases hg : m.chars.getLast? <;> simp [String.pop, hg, String.is_heap]
    | pushOp c =>
      simp only [String.step] at hw
      injection hw with h
      subst h
      rfl
    | pushStrOp s =>
      simp only [String.step] at hw
      injection hw with h
      subst h
      rfl
    | truncateOp n =>
      simp only [String.step, String.truncate] at hw
      split at hw
      · injection hw with h
        subst h
        rfl
      · exact absurd hw (by simp)
    | reserveOp n =>
      simp only [String.step] at hw
      injection hw with h
      subst h
      simp only [String.reserve]
      split <;> rfl
    | reserveExactOp n =>
      simp only [String.step] at hw
      injection hw with h
      subst h
      simp only [String.reserve_exact]
      split <;> rfl
    | drainOp a b =>
      simp only [String.step, String.drain] at hw
      split at hw
      · simp only [Option.map_some'] at hw
        injection hw with h
        subst h
        rfl
      · exact absurd hw (by simp)

/-! Behavior of the UTF-16 decoding loops. -/

theorem with_capacity_as_str (n : Nat) : (String.with_capacity n).as_str = [] := by
  unfold String.with_capacity
  split <;> rfl

theorem from_utf16_go_spec (items : List Utf16Item) :
    ∀ res : String,
      (from_utf16_go res items).map String.as_str
        = match utf16_first_invalid items with
          | some u => Except.error u
          | none => Except.ok (res.as_str ++ utf16_ok_chars items) := by
  induction items with
  | nil =>
    intro res
    simp [from_utf16_go, utf16_first_invalid, utf16_ok_chars, Except.map]
  | cons it rest ih =>
    intro res
    cases it with
    | valid c =>
      simp only [from_utf16_go, utf16_first_invalid, utf16_ok_chars]
      rw [ih (res.push c)]
      cases h : utf16_first_invalid rest <;>
        simp [h, as_str_push, List.append_assoc]
    | invalid u =>
      simp [from_utf16_go, utf16_first_invalid, Except.map]

theorem from_utf16_lossy_go_spec (items : List Utf16Item) :
    ∀ res : String,
      (from_utf16_lossy_go res items).as_str = res.as_str ++ utf16_lossy_chars items := by
  induction items with
  | nil =>
    intro res
    simp [from_utf16_lossy_go, utf16_lossy_chars]
  | cons it rest ih =>
    intro res
    cases it with
    | valid c =>
      simp [from_utf16_lossy_go, utf16_lossy_chars, ih, as_str_push, List.append_assoc]
    | invalid u =>
      simp [from_utf16_lossy_go, utf16_lossy_chars, ih, as_str_push, List.append_assoc]

/-! Claim theorems. -/

/-- C1 (code bug, evaluated at the failing input): `push_str` compares the
remaining inline capacity against the CURRENT length (`sso.remaining() < len`
with `len = self.len()`) instead of the appended slice's byte length.  With
inline content "ab" (remaining 12 of 14) and a 13-byte slice the claimed
trigger fires (12 < 13), yet the code stays inline and appends via
`push_str_unchecked`, leaving 15 bytes in the 14-byte buffer — `wf` is
violated, i.e. the inline buffer overflows (undefined behavior in the Rust
source).  Conversely, with 8 bytes of content and a 1-byte slice the code
promotes to the heap although the slice fits the remaining 6 bytes. -/
theorem push_str_wrong_promotion_trigger :
    StrBuf.remaining ⟨['a', 'b']⟩
        < utf8Len ['0', '1', '2', '3', '4', '5', '6', '7', '8', '9', 'x', 'y', 'z']
    ∧ (String.new_str ['a', 'b']).push_str
          ['0', '1', '2', '3', '4', '5', '6', '7', '8', '9', 'x', 'y', 'z']
        = String.Sso ⟨['a', 'b', '0', '1', '2', '3', '4', '5', '6', '7', '8', '9', 'x', 'y', 'z']⟩
    ∧ ((String.new_str ['a', 'b']).push_str
          ['0', '1', '2', '3', '4', '5', '6', '7', '8', '9', 'x', 'y', 'z']).wf = false
    ∧ ((String.new_str ['a', 'b']).push_str
          ['0', '1', '2', '3', '4', '5', '6', '7', '8', '9', 'x', 'y', 'z']).is_heap = false
    ∧ ((String.new_str ['1', '2', '3', '4', '5', '6', '7', '8']).push_str ['9']).is_heap = true
    ∧ StrBuf.remaining ⟨['1', '2', '3', '4', '5', '6', '7', '8']⟩ ≥ utf8Len ['9'] := by
  decide

/-- C2: constructing a `String` from any slice and reading it back with
`as_str` yields the slice, both through `new_str` and through
`from_str`/`From`, and the result is heap-allocated exactly when the
byte length exceeds the inline capacity `SSO_MAX_SIZE = 2 * wordSize - 2`. -/
theorem new_str_roundtrip_and_representation (s : List Char) :
    (String.new_str s).as_str = s
    ∧ (String.from_str s).as_str = s
    ∧ ((String.new_str s).is_heap = true ↔ SSO_MAX_SIZE < utf8Len s)
    ∧ SSO_MAX_SIZE = 2 * wordSize - 2 := by
  have hfrom : String.from_str s = String.new_str s := rfl
  rw [hfrom]
  unfold String.new_str
  by_cases h : utf8Len s ≤ SSO_MAX_SIZE
  · rw [if_pos h]
    refine ⟨rfl, rfl, ?_, rfl⟩
    simp [String.is_heap]
    omega
  · rw [if_neg h]
    refine ⟨rfl, rfl, ?_, rfl⟩
    simp [String.is_heap]
    omega

/-- Witness for C2 at a concrete one-byte slice. -/
theorem new_str_roundtrip_witness :
    (String.new_str ['a']).as_str = ['a']
    ∧ ((String.new_str ['a']).is_heap = true ↔ SSO_MAX_SIZE < utf8Len ['a']) := by
  have h := new_str_roundtrip_and_representation ['a']
  exact ⟨h.1, h.2.2.1⟩

/-- C3 (code bug, evaluated at the failing input): `truncate` asserts
`is_char_boundary(new_len)` with no `new_len ≤ len` guard, so for
`new_len = 2` on the one-byte string "a" it panics (modelled as `none`),
although the claim — and the method's own doc comment — say a `new_len`
greater than the current length has no effect. -/
theorem truncate_panics_past_len :
    (String.new_str ['a']).len = 1
    ∧ (String.new_str ['a']).truncate 2 = none
    ∧ (String.new_str ['a']).truncate 1 = some (String.new_str ['a']) := by
  decide

/-- C9: pushing a character and popping it returns that character and
restores the original content exactly. -/
theorem push_pop_roundtrip (v : String) (c : Char) (_hne : v.as_str ≠ []) :
    ((v.push c).pop).1 = some c ∧ ((v.push c).pop).2.as_str = v.as_str :=
  pop_concat (v.push c) v.as_str c (as_str_push v c)

/-- Witness for C9 on the non-empty inline value "ab". -/
theorem push_pop_roundtrip_witness :
    (String.new_str ['a', 'b']).as_str ≠ []
    ∧ (((String.new_str ['a', 'b']).push 'z').pop).1 = some 'z'
    ∧ (((String.new_str ['a', 'b']).push 'z').pop).2.as_str = ['a', 'b'] := by
  have h := push_pop_roundtrip (String.new_str ['a', 'b']) 'z' (by decide)
  exact ⟨by decide, h.1, h.2⟩

/-- C10: although declared on `&mut self`, `from_utf16` and
`from_utf16_lossy` leave the receiver unchanged and their results depend
only on the unit sequence, not on the receiver. -/
theorem from_utf16_receiver_untouched (v w : String) (utf16 : List Nat) :
    (v.from_utf16 utf16).1 = v
    ∧ (v.from_utf16 utf16).2 = (w.from_utf16 utf16).2
    ∧ (v.from_utf16_lossy utf16).1 = v
    ∧ (v.from_utf16_lossy utf16).2 = (w.from_utf16_lossy utf16).2 :=
  ⟨rfl, rfl, rfl, rfl⟩

/-- C4 counterexample: the `Display` impl delegates to `Debug::fmt`, so the
Display rendering of the value "a" is the three characters `"a"` (with
quotes), not the character sequence `as_str` = `a` — the claim's last
conjunct is false at this input. -/
theorem display_not_plain_content :
    (String.new_str ['a']).display_fmt = ['"', 'a', '"']
    ∧ (String.new_str ['a']).as_str = ['a']
    ∧ (String.new_str ['a']).display_fmt ≠ (String.new_str ['a']).as_str := by
  decide

/-- C4 (amended): equality, hashing and ordering of `String` are functions of
the decoded content only — values with equal `as_str` compare equal, hash
identically and compare `Ordering.eq` regardless of representation — and the
`Display` formatting is likewise a function of the content only, being the
Debug rendering (quoted, escaped) of `as_str`, not the raw character
sequence. -/
theorem content_traits_representation_independent (hasher : List Char → Nat)
    (u v : String) (h : u.as_str = v.as_str) :
    String.eqStr u v = true
    ∧ String.hashWith hasher u = String.hashWith hasher v
    ∧ String.cmp u v = Ordering.eq
    ∧ String.display_fmt u = String.display_fmt v
    ∧ String.display_fmt u = debug_fmt_str u.as_str := by
  refine ⟨?_, ?_, ?_, ?_, rfl⟩
  · unfold String.eqStr
    rw [h]
    simp
  · unfold String.hashWith
    rw [h]
  · unfold String.cmp
    rw [h]
    exact strCmp_refl _
  · unfold String.display_fmt
    rw [h]

/-- Witness for C4's amended theorem: the inline value "a" and the
heap-promoted value with the same content (obtained by `reserve`) compare
equal and `Ordering.eq` across representations. -/
theorem content_traits_witness :
    (String.new_str ['a']).is_heap = false
    ∧ (String.reserve (String.new_str ['a']) 20).is_heap = true
    ∧ String.eqStr (String.new_str ['a']) (String.reserve (String.new_str ['a']) 20) = true
    ∧ String.cmp (String.new_str ['a']) (String.reserve (String.new_str ['a']) 20) = Ordering.eq := by
  have h := content_traits_representation_independent utf8Len (String.new_str ['a'])
      (String.reserve (String.new_str ['a']) 20) (by decide)
  exact ⟨by decide, by decide, h.1, h.2.2.1⟩

/-- C8: `reserve` (and `reserve_exact`) keep the content unchanged, leave the
value entirely unchanged when `len + additional` already fits the capacity,
and otherwise grow the capacity to at least `len + additional`. -/
theorem reserve_spec (v : String) (n : Nat) :
    (v.reserve n).as_str = v.as_str
    ∧ v.len + n ≤ (v.reserve n).capacity
    ∧ (v.len + n ≤ v.capacity → v.reserve n = v)
    ∧ (v.reserve_exact n).as_str = v.as_str
    ∧ v.len + n ≤ (v.reserve_exact n).capacity
    ∧ (v.len + n ≤ v.capacity → v.reserve_exact n = v) := by
  refine ⟨?_, ?_, ?_, ?_, ?_, ?_⟩
  · simp only [String.reserve]
    split
    · rfl
    · cases v with
      | Sso b => rfl
      | Heap m =>
        simp only [String.as_str]
        unfold MiniVec.reserve
        split <;> rfl
  · simp only [String.reserve]
    split
    · next h => exact h
    · next h =>
      cases v with
      | Sso b => exact Nat.le_refl _
      | Heap m =>
        simp only [String.len, String.capacity] at h ⊢
        unfold MiniVec.reserve
        rw [if_neg h]
        exact Nat.le_max_left _ _
  · simp only [String.reserve]
    split
    · intro _
      rfl
    · next h =>
      intro hc
      exact absurd hc h
  · simp only [String.reserve_exact]
    split
    · rfl
    · cases v with
      | Sso b => rfl
      | Heap m =>
        simp only [String.as_str]
        unfold MiniVec.reserve_exact
        split <;> rfl
  · simp only [String.reserve_exact]
    split
    · next h => exact h
    · next h =>
      cases v with
      | Sso b => exact Nat.le_refl _
      | Heap m =>
        simp only [String.len, String.capacity] at h ⊢
        unfold MiniVec.reserve_exact
        rw [if_neg h]
  · simp only [String.reserve_exact]
    split
    · intro _
      rfl
    · next h =>
      intro hc
      exact absurd hc h

/-- Witness for C8: reserving 3 more bytes for the one-byte inline "a" fits
the inline capacity, so the value is returned entirely unchanged. -/
theorem reserve_spec_witness :
    (String.reserve (String.new_str ['a']) 3).as_str = ['a']
    ∧ String.reserve (String.new_str ['a']) 3 = String.new_str ['a']
    ∧ String.reserve_exact (String.new_str ['a']) 3 = String.new_str ['a'] := by
  have h := reserve_spec (String.new_str ['a']) 3
  exact ⟨h.1, h.2.2.1 (by decide), h.2.2.2.2.2 (by decide)⟩

/-- C5: promotion is one-way — once a value is heap-allocated, it remains
heap-allocated after any sequence of the public mutating operations
(`clear`, `truncate`, `shrink_to_fit`, `pop`, `push`, `push_str`,
`reserve`, `reserve_exact` and drain disposal). -/
theorem heap_is_monotone (v : String) (hv : v.is_heap = true)
    (ops : List Op) (w : String) (hw : v.applySeq ops = some w) :
    w.is_heap = true := by
  induction ops generalizing v with
  | nil =>
    simp only [String.applySeq] at hw
    injection hw with h
    subst h
    exact hv
  | cons op ops ih =>
    simp only [String.applySeq] at hw
    cases hstep : v.step op with
    | none =>
      rw [hstep] at hw
      exact absurd hw (by simp)
    | some v2 =>
      rw [hstep] at hw
      exact ih v2 (step_preserves_heap v op v2 hv hstep) hw

/-- Witness for C5: a fifteen-byte heap value stays on the heap through
clear, push_str, truncate, shrink_to_fit, pop and reserve. -/
theorem heap_is_monotone_witness :
    (String.new_str sampleFifteen).is_heap = true
    ∧ (String.new_str sampleFifteen).applySeq
        [Op.clearOp, Op.pushStrOp ['a', 'b'], Op.truncateOp 1, Op.shrinkOp,
          Op.popOp, Op.reserveOp 5]
      = some (String.Heap ⟨[], 5⟩)
    ∧ (String.Heap ⟨[], 5⟩).is_heap = true := by
  refine ⟨by decide, by decide, ?_⟩
  exact heap_is_monotone (String.new_str sampleFifteen) (by decide)
    [Op.clearOp, Op.pushStrOp ['a', 'b'], Op.truncateOp 1, Op.shrinkOp,
      Op.popOp, Op.reserveOp 5]
    (String.Heap ⟨[], 5⟩) (by decide)

/-- C6: for every char-boundary byte range `[a, b)` with `a ≤ b ≤ len`, the
draining iterator yields exactly the characters originally encoded at byte
offsets `[a, b)`, in order (in reverse order when consumed from the back);
iteration never touches the owner; and disposal — from any cursor state,
i.e. whether the iterator was fully consumed or not — leaves the owner with
the original content minus the drained range, its byte length shrunk by
`b - a`. -/
theorem drain_yields_range_and_excises (v : String) (a b : Nat) (d : Drain)
    (hd : v.drain a b = some d) :
    drainForward d = rangeChars v.as_str a b
    ∧ drainBackward d = (rangeChars v.as_str a b).reverse
    ∧ takeBytes v.as_str a ++ rangeChars v.as_str a b ++ dropBytes v.as_str b = v.as_str
    ∧ utf8Len (rangeChars v.as_str a b) = b - a
    ∧ ((d.next).2).string = v
    ∧ ((d.next_back).2).string = v
    ∧ (∀ cursor : List Char,
        (Drain.drop ⟨v, a, b, cursor⟩).as_str
          = takeBytes v.as_str a ++ dropBytes v.as_str b)
    ∧ (d.drop).as_str = takeBytes v.as_str a ++ dropBytes v.as_str b
    ∧ utf8Len ((d.drop).as_str) = utf8Len v.as_str - (b - a) := by
  unfold String.drain at hd
  split at hd
  next hcond =>
    obtain ⟨hba, hbb, hab⟩ := hcond
    injection hd with hd
    subst hd
    obtain ⟨hsa, hla⟩ := is_char_boundary_split v.as_str a hba
    have hb2 : b = utf8Len (takeBytes v.as_str a) + (b - a) := by
      rw [hla]
      omega
    rw [← hsa, hb2, is_char_boundary_append_add] at hbb
    obtain ⟨hsb, hlb⟩ := is_char_boundary_split (dropBytes v.as_str a) (b - a) hbb
    have hdb : dropBytes v.as_str b = dropBytes (dropBytes v.as_str a) (b - a) := by
      have hstep := dropBytes_append_add (takeBytes v.as_str a) (dropBytes v.as_str a) (b - a)
      rw [hsa, ← hb2] at hstep
      exact hstep
    have hdropAll : ∀ cursor : List Char,
        (Drain.drop ⟨v, a, b, cursor⟩).as_str
          = takeBytes v.as_str a ++ dropBytes v.as_str b := by
      intro cursor
      cases v with
      | Heap m => rfl
      | Sso bb => rfl
    have hsplit3 : takeBytes v.as_str a ++ rangeChars v.as_str a b ++ dropBytes v.as_str b
        = v.as_str := by
      rw [hdb]
      show takeBytes v.as_str a ++ takeBytes (dropBytes v.as_str a) (b - a)
          ++ dropBytes (dropBytes v.as_str a) (b - a) = v.as_str
      rw [List.append_assoc, hsb, hsa]
    have hlenrange : utf8Len (rangeChars v.as_str a b) = b - a := hlb
    refine ⟨drainForward_front _, drainBackward_front _, hsplit3, hlenrange,
      Drain.next_string _, Drain.next_back_string _, hdropAll, hdropAll _, ?_⟩
    rw [hdropAll (rangeChars v.as_str a b), utf8Len_append]
    have e2 : utf8Len v.as_str
        = utf8Len (takeBytes v.as_str a) + utf8Len (rangeChars v.as_str a b)
          + utf8Len (dropBytes v.as_str b) := by
      conv_lhs => rw [← hsplit3]
      rw [utf8Len_append, utf8Len_append]
    omega
  next =>
    exact absurd hd (by simp)

/-- Witness for C6: draining byte range `[1, 2)` of the inline value "abc"
yields the character b and disposal leaves "ac". -/
theorem drain_witness :
    (String.new_str ['a', 'b', 'c']).drain 1 2
      = some ⟨String.new_str ['a', 'b', 'c'], 1, 2, ['b']⟩
    ∧ drainForward ⟨String.new_str ['a', 'b', 'c'], 1, 2, ['b']⟩ = ['b']
    ∧ (Drain.drop ⟨String.new_str ['a', 'b', 'c'], 1, 2, ['b']⟩).as_str = ['a', 'c'] := by
  have h := drain_yields_range_and_excises (String.new_str ['a', 'b', 'c']) 1 2
      ⟨String.new_str ['a', 'b', 'c'], 1, 2, ['b']⟩ (by decide)
  exact ⟨by decide, h.1.trans (by decide), (h.2.2.2.2.2.2.2.1).trans (by decide)⟩

/-- C7: `from_utf16` returns an error exactly when the unit sequence decodes
with an invalid surrogate sequence, and then the error carries the first
invalid code unit; otherwise it returns `Ok` with exactly the decoded
content.  `from_utf16_lossy` always succeeds with the decoding in which each
invalid sequence is replaced by U+FFFD. -/
theorem from_utf16_decode_spec (v : String) (units : List Nat)
    (_hu : ∀ u ∈ units, u < 65536) :
    ((v.from_utf16 units).2).map String.as_str
      = (match utf16_first_invalid (decode_utf16 units) with
         | some u => Except.error u
         | none => Except.ok (utf16_ok_chars (decode_utf16 units)))
    ∧ ((v.from_utf16_lossy units).2).as_str = utf16_lossy_chars (decode_utf16 units) := by
  constructor
  · have h := from_utf16_go_spec (decode_utf16 units) (String.with_capacity units.length)
    rw [with_capacity_as_str] at h
    exact h
  · have h := from_utf16_lossy_go_spec (decode_utf16 units) (String.with_capacity units.length)
    rw [with_capacity_as_str] at h
    exact h

/-- Witness for C7 on the crate's own invalid test vector: the strict decode
fails carrying the lone high surrogate 0xD800, and the lossy decode replaces
it with U+FFFD. -/
theorem from_utf16_decode_witness :
    ((String.new.from_utf16 [0xD834, 0xDD1E, 0x6d, 0x75, 0xD800, 0x69, 0x63]).2).map
        String.as_str
      = Except.error 0xD800
    ∧ ((String.new.from_utf16_lossy [0xD834, 0xDD1E, 0x6d, 0x75, 0xD800, 0x69, 0x63]).2).as_str
      = [Char.ofNat 0x1D11E, 'm', 'u', Char.ofNat 0xFFFD, 'i', 'c'] := by
  have h := from_utf16_decode_spec String.new
      [0xD834, 0xDD1E, 0x6d, 0x75, 0xD800, 0x69, 0x63] (by decide)
  exact ⟨h.1.trans (by rfl), h.2.trans (by rfl)⟩

end Stroka
